import Mathlib

/-!
# Verification of `mysh_complete.c` (build-your-own-shell)

Shallow embedding of the shell's pure data manipulation: the variable
store (`set_var`, `get_var`, the `export` builtin), the job table
(`add_job`, `remove_job`), the tokenizer, the word expander, the parser
(`parse_pipeline`) and the control flow of `execute_pipeline`.

Conventions of the embedding:
* C strings become `String` / `List Char`; machine ints become `Nat`.
* Effectful OS interaction is made explicit: `getpwnam` becomes a
  function parameter `users : String → Option String`, `glob` becomes
  `fs : String → List String` (GLOB_NOCHECK results), the `wstatus`
  values observed by the foreground `waitpid` loop become a list
  `ws : List Nat` (one entry per command, low 16 bits of the kernel
  status word), the pgid assigned by `fork` becomes a parameter, and
  the operations `execute_pipeline` performs (running a builtin in the
  shell process, applying a redirection inside a forked child, ...)
  are recorded as a list of `ExecEvent`s.
* The global variables of the C file (`last_status`, `last_bg_pid`,
  `vars`, `nvars`, the environment reachable through
  `setenv`/`getenv`, and the shell pid) are bundled in `ShellState`.
-/

namespace Mysh

/-- One entry of the C array `vars[]`: `{char *name; char *value; int exported;}`. -/
structure VarEntry where
  name : String
  value : String
  exported : Bool
deriving DecidableEq, Repr

/-- The mutable globals of `mysh_complete.c` that the pure fragment touches:
`vars[]`/`nvars`, the process environment (as visible via `setenv`/`getenv`),
`last_status`, the shell's own pid (for `$$`), and `last_bg_pid` (for `$!`). -/
structure ShellState where
  vars : List VarEntry
  env : List (String × String)
  lastStatus : Nat
  shellPid : Nat
  lastBgPid : Nat
deriving DecidableEq, Repr

/-- `find_var`: linear scan of `vars[]`, first entry with matching name. -/
def find_var : List VarEntry → String → Option VarEntry
  | [], _ => none
  | e :: rest, n => if e.name = n then some e else find_var rest n

/-- `getenv`: first entry of the environment with matching name. -/
def getenvF : List (String × String) → String → Option String
  | [], _ => none
  | p :: rest, n => if p.1 = n then some p.2 else getenvF rest n

/-- `setenv(name, value, 1)`: overwrite the existing entry, else append. -/
def setenvF : List (String × String) → String → String → List (String × String)
  | [], n, v => [(n, v)]
  | p :: rest, n, v => if p.1 = n then (n, v) :: rest else p :: setenvF rest n v

/-- The in-place update performed by `set_var` when `find_var` succeeds:
`free(v->value); v->value = strdup(value); if (exported) v->exported = 1;`.
The exported flag is only ever raised, never cleared. -/
def updateVar : List VarEntry → String → String → Bool → List VarEntry
  | [], _, _, _ => []
  | e :: rest, n, v, ex =>
    if e.name = n then { e with value := v, exported := e.exported || ex } :: rest
    else e :: updateVar rest n v ex

/-- `set_var(name, value, exported)` (mysh_complete.c:454-470): update the
store entry in place (or append while `nvars < MAX_VARS`), and call
`setenv` iff the `exported` argument is set. -/
def set_var (st : ShellState) (n v : String) (ex : Bool) : ShellState :=
  let vars' :=
    if (find_var st.vars n).isSome then updateVar st.vars n v ex
    else if st.vars.length < 256 then st.vars ++ [⟨n, v, ex⟩]
    else st.vars
  { st with
    vars := vars'
    env := if ex then setenvF st.env n v else st.env }

/-- `get_var` (mysh_complete.c:472-491): special parameters `?`, `$`, `!`
first, then the shell store, then the environment; `NULL` becomes `none`. -/
def get_var (st : ShellState) (n : String) : Option String :=
  if n = "?" then some (toString st.lastStatus)
  else if n = "$" then some (toString st.shellPid)
  else if n = "!" then some (toString st.lastBgPid)
  else
    match find_var st.vars n with
    | some e => some e.value
    | none => getenvF st.env n

/-- `get_var` as seen by the expander: a missing variable contributes
the empty string (`expand_word` copies nothing when `val == NULL`). -/
def getVarD (st : ShellState) (n : String) : String :=
  (get_var st n).getD ""

/-- `strchr(tok, '=')` split: name before the first `=`, value after it. -/
def splitEq : List Char → Option (List Char × List Char)
  | [] => none
  | c :: rest =>
    if c = '=' then some ([], rest)
    else
      match splitEq rest with
      | some (a, b) => some (c :: a, b)
      | none => none

/-- The in-place `v->exported = 1` done by `export NAME` for an existing entry. -/
def markExported : List VarEntry → String → List VarEntry
  | [], _ => []
  | e :: rest, n =>
    if e.name = n then { e with exported := true } :: rest
    else e :: markExported rest n

/-- One argument of `builtin_export` (mysh_complete.c:953-969): with `=`,
`set_var(name, value, 1)`; without, raise the flag of an existing entry
and `setenv` its current value; unknown names are ignored. -/
def builtin_export_arg (st : ShellState) (arg : String) : ShellState :=
  match splitEq arg.toList with
  | some (n, v) => set_var st (String.mk n) (String.mk v) true
  | none =>
    match find_var st.vars arg with
    | some e => { st with vars := markExported st.vars arg, env := setenvF st.env arg e.value }
    | none => st

/-- `builtin_export` over `args[1..argc-1]`. -/
def builtin_export (st : ShellState) (args : List String) : ShellState :=
  args.foldl builtin_export_arg st

/-! ## Job table -/

/-- `job_state_t`. -/
inductive JState where
  | running
  | stopped
  | done
deriving DecidableEq, Repr

/-- `job_t`. -/
structure Job where
  id : Nat
  pgid : Nat
  command : String
  state : JState
deriving DecidableEq, Repr

/-- `add_job(pgid, cmd, background)` (mysh_complete.c:627-638): refuse when
the table already holds `MAX_JOBS` (64) jobs; otherwise append a Running
job with id `njobs + 1` and, when `background` is set, print `[id] pgid`
(the second component records what was printed). -/
def add_job (jt : List Job) (pgid : Nat) (cmd : String) (background : Bool) :
    List Job × List (Nat × Nat) :=
  if 64 ≤ jt.length then (jt, [])
  else
    let jt' := jt ++ [⟨jt.length + 1, pgid, cmd, JState.running⟩]
    (jt', if background then [(jt'.length, pgid)] else [])

/-- `find_job(pgid)`: first job with matching pgid. -/
def find_job : List Job → Nat → Option Job
  | [], _ => none
  | j :: rest, p => if j.pgid = p then some j else find_job rest p

/-- `remove_job(pgid)` (mysh_complete.c:647-656): delete the first job with
matching pgid, shifting the rest down (`memmove`); ids are not rewritten. -/
def remove_job : List Job → Nat → List Job
  | [], _ => []
  | j :: rest, p => if j.pgid = p then rest else j :: remove_job rest p

/-! ## Pipeline data model -/

/-- The `flags` field of `redirect_t`, restricted to the three values the
parser ever stores: `O_RDONLY`, `O_WRONLY|O_CREAT|O_TRUNC` and
`O_WRONLY|O_CREAT|O_APPEND` (the latter two with mode 0644). -/
inductive RMode where
  | rdonly
  | trunc
  | append
deriving DecidableEq, Repr

/-- `redirect_t`: target fd (0 or 1), file name, open flags. -/
structure Redirect where
  fd : Nat
  file : String
  mode : RMode
deriving DecidableEq, Repr

/-- `command_t`: argv (NULL terminator dropped) and the redirection list. -/
structure Command where
  args : List String
  redirects : List Redirect
deriving DecidableEq, Repr

/-- `pipeline_t`. -/
structure Pipeline where
  cmds : List Command
  negate : Bool
  background : Bool
deriving DecidableEq, Repr

/-! ## Executor (`execute_pipeline`, mysh_complete.c:1074-1205)

The kernel's `wstatus` word is modelled as a `Nat` (its low 16 bits) and
the status macros by their glibc bit-level meaning:
`WIFEXITED(s) = ((s & 0x7f) == 0)`, `WEXITSTATUS(s) = (s >> 8) & 0xff`,
`WIFSIGNALED(s) = ((signed char)(((s & 0x7f) + 1)) >> 1 > 0)` which on
naturals is `s % 128 ∉ {0, 127}`, `WTERMSIG(s) = s & 0x7f`,
`WIFSTOPPED(s) = ((s & 0xff) == 0x7f)`. -/

/-- `WIFEXITED`. -/
def wifexited (s : Nat) : Bool := s % 128 == 0

/-- `WEXITSTATUS`. -/
def wexitstatus (s : Nat) : Nat := (s / 256) % 256

/-- `WIFSIGNALED` (glibc: the signed-char trick excludes `0x7f`). -/
def wifsignaled (s : Nat) : Bool := s % 128 != 0 && s % 128 != 127

/-- `WTERMSIG`. -/
def wtermsig (s : Nat) : Nat := s % 128

/-- `WIFSTOPPED`. -/
def wifstopped (s : Nat) : Bool := s % 256 == 127

/-- A status word reporting termination (normal exit or death by signal). -/
def terminatedB (s : Nat) : Bool := wifexited s || wifsignaled s

/-- The status `execute_pipeline` derives from the last command's wait
status: `WEXITSTATUS` on normal exit, `128 + WTERMSIG` on signal death. -/
def decodeExit (s : Nat) : Nat :=
  if wifexited s then wexitstatus s else 128 + wtermsig s

/-- Result of the foreground wait loop. -/
inductive FgOutcome where
  | stopped
  | finished (status : Nat)
deriving DecidableEq, Repr

/-- The foreground wait loop (mysh_complete.c:1177-1198): wait for each
child in order; on the first `WIFSTOPPED` report, return early (a Stopped
job is created by the caller); only the iteration `i == ncmds - 1` writes
the `status` variable, which starts at the accumulator value (0). -/
def fgWaitLoop : List Nat → Nat → FgOutcome
  | [], acc => .finished acc
  | [s], acc =>
    if wifstopped s then .stopped
    else
      .finished (if wifexited s then wexitstatus s
                 else if wifsignaled s then 128 + wtermsig s else acc)
  | s :: s2 :: rest, acc =>
    if wifstopped s then .stopped else fgWaitLoop (s2 :: rest) acc

/-- The C expression `!status`: 0 becomes 1, every non-zero becomes 0. -/
def cNot (s : Nat) : Nat := if s = 0 then 1 else 0

/-- `pl->negate ? !status : status`. -/
def applyNegate (negate : Bool) (s : Nat) : Nat := if negate then cNot s else s

/-- `is_builtin` (mysh_complete.c:1020-1026). -/
def is_builtin (n : String) : Bool :=
  n == "cd" || n == "export" || n == "fg" || n == "bg" || n == "jobs"

/-- `pl->cmds[0].args[0]`; an absent argv[0] is modelled as `""` (the C
would pass `NULL` to `strcmp`, which never names a builtin here). -/
def pipelineArgv0 (pl : Pipeline) : String :=
  match pl.cmds with
  | [] => ""
  | c :: _ => c.args.headD ""

/-- The fast-path test of mysh_complete.c:1078:
`pl->ncmds == 1 && is_builtin(pl->cmds[0].args[0]) && !pl->background`. -/
def fastPathB (pl : Pipeline) : Bool :=
  pl.cmds.length == 1 && is_builtin (pipelineArgv0 pl) && !pl.background

/-- The observable operations `execute_pipeline` performs, in order:
running a builtin in the shell process (fast path), applying one
redirection inside forked child `i` (`setup_redirects`), running a
builtin inside child `i`, or resolving and exec-ing child `i`'s argv[0].
These are the only places the function touches file descriptors on
behalf of a command. -/
inductive ExecEvent where
  | builtinInShell (name : String)
  | childRedirect (i : Nat) (file : String)
  | childBuiltin (i : Nat)
  | childExec (i : Nat)
deriving DecidableEq, Repr

/-- Discriminator: is this event the application of a redirection? -/
def ExecEvent.isRedirect : ExecEvent → Bool
  | .childRedirect _ _ => true
  | _ => false

/-- The events of forked child `i`: `setup_redirects` applies the
command's redirections in order, then the child either runs a builtin
and exits or resolves argv[0] and execs. -/
def childEvents (i : Nat) (c : Command) : List ExecEvent :=
  (c.redirects.map fun r => ExecEvent.childRedirect i r.file) ++
  [if is_builtin (c.args.headD "") then ExecEvent.childBuiltin i else ExecEvent.childExec i]

/-- Events of the general fork path, children `i, i+1, ...`. -/
def generalEvents : Nat → List Command → List ExecEvent
  | _, [] => []
  | i, c :: rest => childEvents i c ++ generalEvents (i + 1) rest

/-- What one `execute_pipeline` call produced: the returned int, the
updated globals, the updated job table, and the recorded events. -/
structure ExecOutcome where
  status : Nat
  st : ShellState
  jobs : List Job
  events : List ExecEvent
deriving DecidableEq, Repr

/-- `execute_pipeline(pl)` (mysh_complete.c:1074-1205).

Parameters standing for the OS interaction: `builtinRes` is the value
`run_builtin` returns on the fast path; `pgid` is the pid `fork` gave
the first child (hence the job's process group); `ws` lists the wait
status each foreground `waitpid(pids[i], ..., WUNTRACED)` reports.

Control flow translated from the source: empty pipeline returns 0; the
single-builtin foreground fast path runs the builtin in the shell
process and applies the negation — nothing else (in particular
`setup_redirects` is not called and `last_bg_pid` is untouched);
otherwise the general path forks every command (children apply their
redirections), unconditionally records `last_bg_pid = pgid`, then:
background → `add_job` and status 0 (no negation); a stopped child →
`add_job` a stopped job and status 0 (no negation); all collected →
the last command's decoded status, negated. -/
def execute_pipeline (pl : Pipeline) (st : ShellState) (jobs : List Job)
    (builtinRes : Nat) (pgid : Nat) (ws : List Nat) : ExecOutcome :=
  if pl.cmds.isEmpty then ⟨0, st, jobs, []⟩
  else if fastPathB pl then
    ⟨applyNegate pl.negate builtinRes, st, jobs, [ExecEvent.builtinInShell (pipelineArgv0 pl)]⟩
  else
    let evs := generalEvents 0 pl.cmds
    let st' := { st with lastBgPid := pgid }
    if pl.background then
      ⟨0, st', (add_job jobs pgid "background job" true).1, evs⟩
    else
      match fgWaitLoop ws 0 with
      | .stopped => ⟨0, st', (add_job jobs pgid "stopped job" false).1, evs⟩
      | .finished s => ⟨applyNegate pl.negate s, st', jobs, evs⟩

/-! ## Tokenizer (`tokenize`, mysh_complete.c:1282-1306)

The C scanner records a token start after skipping whitespace, then
advances while `in_quote || !isspace(*p)`, toggling the single
`in_quote` flag on either `"` or `'`. Quote characters are kept in the
token; nothing else (operators included) ends a token. The loop stops
after `MAX_ARGS - 1 = 127` tokens. -/

/-- C `isspace` on the ASCII range. -/
def isspaceC (c : Char) : Bool :=
  c == ' ' || c == '\t' || c == '\n' || c == '\x0b' || c == '\x0c' || c == '\r'

/-- The two characters that toggle `in_quote`. -/
def isQuoteC (c : Char) : Bool := c == '"' || c == '\''

/-- Scan one token starting at the current position: consume while
`in_quote || !isspace`, toggling `in_quote` on quote characters; the
terminating space (if any) is consumed (`*p++ = '\0'`). Returns the
token's characters and the rest of the line. -/
def scanToken : List Char → Bool → List Char × List Char
  | [], _ => ([], [])
  | c :: rest, inq =>
    if inq || !isspaceC c then
      let p := scanToken rest (if isQuoteC c then !inq else inq)
      (c :: p.1, p.2)
    else ([], rest)

/-- The tokenizer loop; `fuel` only bounds the recursion (each round
consumes at least one input character, so `length + 1` always suffices). -/
def tokenizeAux : Nat → List Char → Nat → List (List Char)
  | 0, _, _ => []
  | fuel + 1, s, ntok =>
    if s.isEmpty then []
    else if 127 ≤ ntok then []
    else
      let s' := s.dropWhile isspaceC
      if s'.isEmpty then []
      else
        let p := scanToken s' false
        p.1 :: tokenizeAux fuel p.2 (ntok + 1)

/-- `tokenize(line)`: the NULL-terminated token array as a list. -/
def tokenize (line : String) : List String :=
  (tokenizeAux (line.toList.length + 1) line.toList 0).map String.mk

/-! ## Expander (`expand_word`, mysh_complete.c:1213-1274)

The output buffer holds at most `MAX_LINE - 1 = 4095` characters; the
remaining capacity is threaded through as `cap`. `getpwnam` is the
parameter `users`. `fuel` only bounds the recursion: every round
consumes at least one input character. -/

/-- The character class of an unbraced `$` name:
`isalnum(*p) || *p == '_' || *p == '?' || *p == '$' || *p == '!'`. -/
def varChar (c : Char) : Bool :=
  c.isAlphanum || c == '_' || c == '?' || c == '$' || c == '!'

/-- Last element of a character list, with a default. -/
def lastD : List Char → Char → Char
  | [], d => d
  | [a], _ => a
  | _ :: b :: rest, d => lastD (b :: rest) d

/-- Collect an unbraced variable name: while the class holds and fewer
than 255 characters were taken. Returns (name, rest). -/
def takeVar : List Char → Nat → List Char × List Char
  | [], _ => ([], [])
  | c :: rest, i =>
    if varChar c && i < 255 then
      let p := takeVar rest (i + 1)
      (c :: p.1, p.2)
    else ([], c :: rest)

/-- Collect a braced name: while not `}` and fewer than 255 characters. -/
def takeBraced : List Char → Nat → List Char × List Char
  | [], _ => ([], [])
  | c :: rest, i =>
    if c != '}' && i < 255 then
      let p := takeBraced rest (i + 1)
      (c :: p.1, p.2)
    else ([], c :: rest)

/-- Collect a `~user` name: while not `/` and fewer than 255 characters. -/
def takeUser : List Char → Nat → List Char × List Char
  | [], _ => ([], [])
  | c :: rest, i =>
    if c != '/' && i < 255 then
      let p := takeUser rest (i + 1)
      (c :: p.1, p.2)
    else ([], c :: rest)

/-- Append an optional value, bounded by the remaining buffer capacity
(`while (*val && out < buf + MAX_LINE - 1)`); `NULL` appends nothing. -/
def optTake (o : Option String) (cap : Nat) : List Char :=
  match o with
  | some v => v.toList.take cap
  | none => []

/-- The scanning loop of `expand_word`. `tOk` records whether a `~` at
the current position would expand (`p == word || *(p-1) == ':'`); it is
recomputed from the last input character each branch consumed. -/
def expandAux (users : String → Option String) (st : ShellState) :
    Nat → List Char → Bool → Nat → List Char
  | 0, _, _, _ => []
  | _ + 1, [], _, _ => []
  | fuel + 1, c :: rest, tOk, cap =>
    if cap = 0 then []
    else if c = '$' then
      if rest.head? = some '{' then
        let p := takeBraced rest.tail 0
        let r2 := if p.2.head? = some '}' then p.2.tail else p.2
        let lastC := if p.2.head? = some '}' then '}' else lastD p.1 '{'
        let out := optTake (get_var st (String.mk p.1)) cap
        out ++ expandAux users st fuel r2 (lastC == ':') (cap - out.length)
      else
        let p := takeVar rest 0
        let out := optTake (get_var st (String.mk p.1)) cap
        out ++ expandAux users st fuel p.2 (lastD p.1 '$' == ':') (cap - out.length)
    else if c = '~' ∧ tOk = true then
      if rest.head? = some '/' ∨ rest = [] then
        let out := optTake (getenvF st.env "HOME") cap
        out ++ expandAux users st fuel rest false (cap - out.length)
      else
        let p := takeUser rest 0
        let out := optTake (users (String.mk p.1)) cap
        out ++ expandAux users st fuel p.2 (lastD p.1 '~' == ':') (cap - out.length)
    else
      c :: expandAux users st fuel rest (c == ':') (cap - 1)

/-- `expand_word(word)`: `$NAME`, `${NAME}`, `~`, `~user`, everything
else copied, into a buffer of capacity `MAX_LINE - 1`. -/
def expand_word (users : String → Option String) (st : ShellState) (w : String) : String :=
  String.mk (expandAux users st (w.toList.length + 1) w.toList true 4095)

/-! ## Parser (`parse_pipeline`, mysh_complete.c:1354-1630)

`glob` is the parameter `fs : String → List String`, returning the
GLOB_NOCHECK match list of a pattern. -/

/-- `strchr(expanded, '*') || strchr(expanded, '?')`. -/
def hasGlobChar (s : String) : Bool :=
  s.toList.any fun c => c == '*' || c == '?'

/-- Handle one ordinary token (the final `else` of the parse loop):
a `NAME=VALUE` while assignments are allowed calls
`set_var(name, value, 0)` and is not added to argv; otherwise the token
is expanded, glob results are appended while `argc < MAX_ARGS - 1`, and
assignment mode is left. Returns (state, command, assignment mode). -/
def applyArg (users : String → Option String) (fs : String → List String)
    (st : ShellState) (cur : Command) (inA : Bool) (t : String) :
    ShellState × Command × Bool :=
  match (if inA then splitEq t.toList else none) with
  | some (n, v) => (set_var st (String.mk n) (String.mk v) false, cur, true)
  | none =>
    let e := expand_word users st t
    if hasGlobChar e then
      (st, { cur with args := cur.args ++ (fs e).take (127 - cur.args.length) }, false)
    else
      (st, { cur with args := cur.args ++ [e] }, false)

/-- The token loop of `parse_pipeline`: `|` finalizes the current
command and re-enters assignment mode; `<`, `>`, `>>` followed by a
word attach an expanded redirection; a trailing `<`/`>`/`>>` with no
word after it falls through to the ordinary-token branch. Returns the
final state and the command list. -/
def parseLoop (users : String → Option String) (fs : String → List String) :
    List String → ShellState → Command → List Command → Bool →
    ShellState × List Command
  | [], st, cur, acc, _ => (st, acc ++ [cur])
  | [t], st, cur, acc, inA =>
    if t = "|" then (st, acc ++ [cur, ⟨[], []⟩])
    else
      let r := applyArg users fs st cur inA t
      (r.1, acc ++ [r.2.1])
  | t :: nt :: rest, st, cur, acc, inA =>
    if t = "|" then
      parseLoop users fs (nt :: rest) st ⟨[], []⟩ (acc ++ [cur]) true
    else if t = "<" then
      parseLoop users fs rest st
        { cur with redirects := cur.redirects ++ [⟨0, expand_word users st nt, RMode.rdonly⟩] }
        acc inA
    else if t = ">" then
      parseLoop users fs rest st
        { cur with redirects := cur.redirects ++ [⟨1, expand_word users st nt, RMode.trunc⟩] }
        acc inA
    else if t = ">>" then
      parseLoop users fs rest st
        { cur with redirects := cur.redirects ++ [⟨1, expand_word users st nt, RMode.append⟩] }
        acc inA
    else
      let r := applyArg users fs st cur inA t
      parseLoop users fs (nt :: rest) r.1 r.2.1 acc r.2.2

/-- `parse_pipeline(tokens, ntokens, pl)`: a leading `!` sets `negate`,
a trailing `&` sets `background` and is dropped, the loop builds the
commands, and the result is valid iff the first command has argv
entries or redirections (`ncmds > 0` always holds: the loop yields at
least one command). Returns (state, pipeline, valid). -/
def parse_pipeline (users : String → Option String) (fs : String → List String)
    (st : ShellState) (tokens : List String) : ShellState × Pipeline × Bool :=
  let neg := match tokens with
    | t :: _ => t = "!"
    | [] => false
  let toks1 := if neg then tokens.tail else tokens
  let bg := toks1.getLast? = some "&"
  let toks2 := if bg then toks1.dropLast else toks1
  let r := parseLoop users fs toks2 st ⟨[], []⟩ [] true
  let pl : Pipeline := ⟨r.2, neg, bg⟩
  let valid := match r.2 with
    | [] => false
    | c :: _ => !c.args.isEmpty || !c.redirects.isEmpty
  (r.1, pl, valid)

/-- One iteration of the main read loop (mysh_complete.c:1892-2038)
after the newline strip, up to the decision to execute: an empty line
or an empty token list is skipped; a line whose `parse_pipeline` comes
back invalid is skipped silently (no diagnostic, `last_status`
untouched); a valid parse hands the pipeline to `execute_pipeline`.
Returns the state after parsing and the pipeline to execute, if any. -/
def processLine (users : String → Option String) (fs : String → List String)
    (st : ShellState) (line : String) : ShellState × Option Pipeline :=
  if line = "" then (st, none)
  else
    let toks := tokenize line
    if toks.isEmpty then (st, none)
    else
      let r := parse_pipeline users fs st toks
      if r.2.2 then (r.1, some r.2.1) else (r.1, none)

/-! ## Concrete fixtures used by witnesses and counterexamples -/

/-- A fresh shell state: no variables, empty environment, status 0,
shell pid 100, no background pipeline launched yet. -/
def st0 : ShellState := ⟨[], [], 0, 100, 0⟩

/-- A user database with no entries. -/
def users0 : String → Option String := fun _ => none

/-- A filesystem on which every glob pattern matches nothing
(GLOB_NOCHECK then yields the literal pattern). -/
def fs0 : String → List String := fun p => [p]

/-- A state whose most recent background pipeline had pgid 42. -/
def stBg42 : ShellState := ⟨[], [], 0, 100, 42⟩

/-- A state where `FOO` is both a shell variable (`bar`) and an
environment entry (`env`). -/
def stC9 : ShellState := ⟨[⟨"FOO", "bar", false⟩], [("FOO", "env")], 7, 100, 42⟩

/-- Foreground two-command pipeline of external commands. -/
def plFg2 : Pipeline := ⟨[⟨["sh"], []⟩, ⟨["sh2"], []⟩], false, false⟩

/-- `! sh`: negated foreground external command. -/
def plFgNeg : Pipeline := ⟨[⟨["sh"], []⟩], true, false⟩

/-- `! sleep 5 &`: negated background pipeline. -/
def plBgNeg : Pipeline := ⟨[⟨["sleep", "5"], []⟩], true, true⟩

/-- `sleep 5 &`: the same background pipeline without negation. -/
def plBg : Pipeline := ⟨[⟨["sleep", "5"], []⟩], false, true⟩

/-- `jobs > f`: a single foreground builtin with an output redirection. -/
def plJobsF : Pipeline := ⟨[⟨["jobs"], [⟨1, "f", RMode.trunc⟩]⟩], false, false⟩

/-- `ls`: a single foreground external command. -/
def plLs : Pipeline := ⟨[⟨["ls"], []⟩], false, false⟩

/-- `wc < in`: a foreground external command with an input redirection. -/
def plWcRed : Pipeline := ⟨[⟨["wc"], [⟨0, "in", RMode.rdonly⟩]⟩], false, false⟩

/-- Two jobs as `add_job` would have created them. -/
def jW1 : Job := ⟨1, 10, "a", JState.running⟩

/-- Second fixture job. -/
def jW2 : Job := ⟨2, 20, "b", JState.running⟩

/-- Filler job used to build a full table. -/
def jFill : Job := ⟨0, 0, "", JState.running⟩

/-! # Theorems -/

/-! ## Shared helper lemmas -/

/-- `setenv(n, v, 1)` makes `getenv(n)` return `v`. -/
theorem getenvF_setenvF (env : List (String × String)) (n v : String) :
    getenvF (setenvF env n v) n = some v := by
  induction env with
  | nil => simp [setenvF, getenvF]
  | cons p rest ih =>
    by_cases h : p.1 = n
    · simp [setenvF, getenvF, h]
    · simp [setenvF, getenvF, h, ih]

/-! ## C10 — add_job at capacity -/

/-- C10: when the job table already holds `MAX_JOBS = 64` jobs, `add_job`
returns with the table unchanged and prints nothing; consequently a table
of at most 64 jobs can never grow beyond 64. -/
theorem c10_add_job_capacity :
    (∀ (jt : List Job) (p : Nat) (c : String) (b : Bool),
       64 ≤ jt.length → add_job jt p c b = (jt, [])) ∧
    (∀ (jt : List Job) (p : Nat) (c : String) (b : Bool),
       jt.length ≤ 64 → ((add_job jt p c b).1).length ≤ 64) := by
  constructor
  · intro jt p c b h
    simp [add_job, h]
  · intro jt p c b h
    by_cases h64 : 64 ≤ jt.length
    · simp [add_job, h64]
      omega
    · simp [add_job, h64]
      omega

/-- Witness for C10 at a concrete full table. -/
theorem c10_add_job_capacity_witness :
    64 ≤ (List.replicate 64 jFill).length ∧
    add_job (List.replicate 64 jFill) 5 "x" true = (List.replicate 64 jFill, []) ∧
    ((add_job (List.replicate 64 jFill) 5 "x" true).1).length ≤ 64 :=
  ⟨by simp, c10_add_job_capacity.1 _ 5 "x" true (by simp),
   c10_add_job_capacity.2 _ 5 "x" true (by simp)⟩

/-! ## C5 — job ids -/

/-- C5 is false: after `add(10); add(20); remove(10); add(30)` the table
holds ids `[2, 2]` — the job added last received id 2 although a job with
id 2 had been added before it (first conjunct), so ids are reused and do
not strictly increase with insertion order. -/
theorem c5_job_id_reuse_counterexample :
    ((add_job ((add_job [] 10 "a" false).1) 20 "b" false).1).map Job.id = [1, 2] ∧
    ((add_job (remove_job ((add_job ((add_job [] 10 "a" false).1) 20 "b" false).1) 10)
        30 "c" false).1).map Job.id = [2, 2] := by
  constructor <;> rfl

/-- C5 amended: a newly added job's id is one more than the *current*
number of tracked jobs (`njobs + 1`), not a monotone counter — so after a
removal an id can be assigned again; removal itself leaves every
remaining job (hence its id) unchanged. -/
theorem c5_job_ids_amended :
    (∀ (jt : List Job) (p : Nat) (c : String) (b : Bool),
       jt.length < 64 →
       ((add_job jt p c b).1).map Job.id = jt.map Job.id ++ [jt.length + 1]) ∧
    (∀ (jt : List Job) (p : Nat) (j : Job), j ∈ remove_job jt p → j ∈ jt) := by
  constructor
  · intro jt p c b h
    have h64 : ¬ 64 ≤ jt.length := by omega
    simp [add_job, h64]
  · intro jt p j hm
    induction jt with
    | nil => simp [remove_job] at hm
    | cons a rest ih =>
      by_cases hp : a.pgid = p
      · simp only [remove_job, if_pos hp] at hm
        exact List.mem_cons_of_mem _ hm
      · simp only [remove_job, if_neg hp, List.mem_cons] at hm
        rcases hm with h | h
        · exact h ▸ List.mem_cons_self _ _
        · exact List.mem_cons_of_mem _ (ih h)

/-- Witness for C5's amended statement at concrete tables. -/
theorem c5_job_ids_amended_witness :
    (([jW1, jW2] : List Job).length < 64 ∧
     ((add_job [jW1, jW2] 30 "c" false).1).map Job.id = [jW1, jW2].map Job.id ++ [3]) ∧
    (jW2 ∈ remove_job [jW1, jW2] 10 ∧ jW2 ∈ ([jW1, jW2] : List Job)) :=
  ⟨⟨by decide, c5_job_ids_amended.1 [jW1, jW2] 30 "c" false (by decide)⟩,
   by decide, c5_job_ids_amended.2 [jW1, jW2] 10 jW2 (by decide)⟩

/-! ## C4 — exported variables vs the environment -/

/-- C4 is false: `export FOO=a` followed by the bare assignment `FOO=b`
leaves the store entry `FOO` with value `b` and the exported flag still
set, while the process environment still maps `FOO` to `a` — the claimed
invariant (exported ⇒ environment value equals store value) is broken. -/
theorem c4_export_sync_counterexample :
    (find_var (set_var (builtin_export_arg st0 "FOO=a") "FOO" "b" false).vars "FOO").map
        VarEntry.exported = some true ∧
    (find_var (set_var (builtin_export_arg st0 "FOO=a") "FOO" "b" false).vars "FOO").map
        VarEntry.value = some "b" ∧
    getenvF (set_var (builtin_export_arg st0 "FOO=a") "FOO" "b" false).env "FOO" = some "a" ∧
    ("a" : String) ≠ "b" := by
  refine ⟨rfl, rfl, rfl, by decide⟩

/-- C4 amended: only operations passing `exported = 1` (the `export`
builtin) sync the environment — they make `getenv` return the new value;
a bare assignment (`exported = 0`) never touches the environment at all,
so a bare assignment to a previously exported name leaves the
environment entry at its old value, and the exported/env invariant fails. -/
theorem c4_env_sync_amended :
    ∀ (st : ShellState) (n v : String),
      (set_var st n v false).env = st.env ∧
      getenvF (set_var st n v true).env n = some v := by
  intro st n v
  constructor
  · simp [set_var]
  · simp only [set_var]
    exact getenvF_setenvF st.env n v

/-! ## Executor lemmas -/

/-- A terminated status word is never a stop report: `s & 0x7f == 0`
or `s % 128 ∉ {0,127}` both exclude `s & 0xff == 0x7f`. -/
theorem terminated_not_stopped {s : Nat} (h : terminatedB s = true) :
    wifstopped s = false := by
  have h2 : s % 256 % 128 = s % 128 := Nat.mod_mod_of_dvd s (by norm_num)
  simp only [terminatedB, wifexited, wifsignaled, Bool.or_eq_true, beq_iff_eq,
    Bool.and_eq_true, bne_iff_ne, ne_eq] at h
  simp only [wifstopped, beq_eq_false_iff_ne, ne_eq]
  omega

/-- If every waited-for status reports termination, the foreground loop
runs to the end and yields the decoded status of the last command: the
earlier statuses play no part and the initial accumulator is dropped. -/
theorem fgWaitLoop_terminated (pre : List Nat) (wlast : Nat) (acc : Nat)
    (hterm : ∀ s ∈ pre ++ [wlast], terminatedB s = true) :
    fgWaitLoop (pre ++ [wlast]) acc = .finished (decodeExit wlast) := by
  induction pre generalizing acc with
  | nil =>
    have ht := hterm wlast (by simp)
    have hns := terminated_not_stopped ht
    by_cases he : wifexited wlast = true
    · simp [fgWaitLoop, hns, decodeExit, he]
    · have hs : wifsignaled wlast = true := by
        simp only [terminatedB, Bool.or_eq_true] at ht
        rcases ht with ht | ht
        · exact absurd ht he
        · exact ht
      simp [fgWaitLoop, hns, decodeExit, he, hs]
  | cons a pre ih =>
    have ha := hterm a (by simp)
    have hna := terminated_not_stopped ha
    have hterm' : ∀ s ∈ pre ++ [wlast], terminatedB s = true := by
      intro s hs
      exact hterm s (by simp [hs])
    obtain ⟨b, l, hbl⟩ : ∃ b l, pre ++ [wlast] = b :: l := by
      cases hq : pre ++ [wlast] with
      | nil => exact absurd hq (by simp)
      | cons b l => exact ⟨b, l, rfl⟩
    calc fgWaitLoop (a :: pre ++ [wlast]) acc
        = fgWaitLoop (pre ++ [wlast]) acc := by
          rw [List.cons_append, hbl]
          simp [fgWaitLoop, hna]
      _ = .finished (decodeExit wlast) := ih acc hterm'

/-- A nonempty command list is not `isEmpty`. -/
theorem cmds_not_empty {pl : Pipeline} (h : pl.cmds ≠ []) :
    pl.cmds.isEmpty = false := by
  cases hc : pl.cmds with
  | nil => exact absurd hc h
  | cons _ _ => rfl

/-! ## C1 — foreground pipeline status is the last command's -/

/-- C1: on the general path, for a foreground pipeline all of whose
commands terminate (no stop reports), the status `execute_pipeline`
computes before the final negation is the decoded status of the *last*
command: `WEXITSTATUS` on normal exit and `128 + WTERMSIG` on death by
signal (see `decodeExit`); the earlier commands' statuses (`pre`, fully
arbitrary here) do not affect the result. -/
theorem c1_pipeline_status_last_command
    (pl : Pipeline) (st : ShellState) (jobs : List Job) (builtinRes pgid : Nat)
    (pre : List Nat) (wlast : Nat)
    (hcmds : pl.cmds ≠ []) (hfp : fastPathB pl = false) (hbg : pl.background = false)
    (hterm : ∀ s ∈ pre ++ [wlast], terminatedB s = true) :
    (execute_pipeline pl st jobs builtinRes pgid (pre ++ [wlast])).status =
      applyNegate pl.negate (decodeExit wlast) := by
  have hne := cmds_not_empty hcmds
  simp [execute_pipeline, hne, hfp, hbg, fgWaitLoop_terminated pre wlast 0 hterm]

/-- Witness for C1: `sh | sh2` where the first command exits 0 and the
last is killed by signal 9 — the pipeline status is `128 + 9 = 137`. -/
theorem c1_pipeline_status_last_command_witness :
    (plFg2.cmds ≠ [] ∧ fastPathB plFg2 = false ∧ plFg2.background = false ∧
     ∀ s ∈ [0] ++ [9], terminatedB s = true) ∧
    (execute_pipeline plFg2 st0 [] 0 500 ([0] ++ [9])).status =
      applyNegate plFg2.negate (decodeExit 9) :=
  ⟨⟨by decide, by decide, rfl, by decide⟩,
   c1_pipeline_status_last_command plFg2 st0 [] 0 500 [0] 9
     (by decide) (by decide) rfl (by decide)⟩

/-- A pipeline on the fast path has exactly one command, so its command
list is nonempty. -/
theorem fastPath_cmds_nonempty {pl : Pipeline} (h : fastPathB pl = true) :
    pl.cmds.isEmpty = false := by
  simp only [fastPathB, Bool.and_eq_true, beq_iff_eq] at h
  cases hc : pl.cmds with
  | nil => rw [hc] at h; simp at h
  | cons _ _ => rfl

/-! ## C7 — `!` negation -/

/-- C7 is false as universally stated: for a background pipeline with the
negate flag set, the background branch returns 0 before the negation is
ever reached, and the same pipeline without negation also returns 0 — so
the returned status (0) is not `!status` of the un-negated status
(`!0 = 1`). -/
theorem c7_negation_counterexample :
    plBgNeg.negate = true ∧
    (execute_pipeline plBgNeg st0 [] 0 500 []).status ≠
      cNot ((execute_pipeline plBg st0 [] 0 500 []).status) :=
  ⟨rfl, by decide⟩

/-- C7 amended: the negation `!status` is applied on the fast path and on
the foreground general path that runs to completion — there it maps every
non-zero status to 0 and 0 to 1; background pipelines return 0 with the
negate flag ignored. -/
theorem c7_negation_amended :
    (∀ (pl : Pipeline) (st : ShellState) (jobs : List Job) (br pgid : Nat)
       (ws : List Nat) (s : Nat),
       pl.cmds ≠ [] → fastPathB pl = false → pl.background = false →
       fgWaitLoop ws 0 = .finished s → pl.negate = true →
       (execute_pipeline pl st jobs br pgid ws).status = cNot s) ∧
    (∀ (pl : Pipeline) (st : ShellState) (jobs : List Job) (br pgid : Nat) (ws : List Nat),
       pl.cmds ≠ [] → fastPathB pl = false → pl.background = true →
       (execute_pipeline pl st jobs br pgid ws).status = 0) ∧
    (∀ (pl : Pipeline) (st : ShellState) (jobs : List Job) (br pgid : Nat) (ws : List Nat),
       fastPathB pl = true → pl.negate = true →
       (execute_pipeline pl st jobs br pgid ws).status = cNot br) ∧
    (∀ s : Nat, s ≠ 0 → cNot s = 0) ∧ cNot 0 = 1 := by
  refine ⟨?_, ?_, ?_, ?_, rfl⟩
  · intro pl st jobs br pgid ws s h1 h2 h3 h4 h5
    have hne := cmds_not_empty h1
    simp [execute_pipeline, hne, h2, h3, h4, h5, applyNegate]
  · intro pl st jobs br pgid ws h1 h2 h3
    have hne := cmds_not_empty h1
    simp [execute_pipeline, hne, h2, h3]
  · intro pl st jobs br pgid ws h1 h2
    simp [execute_pipeline, fastPath_cmds_nonempty h1, h1, h2, applyNegate]
  · intro s hs
    simp [cNot, hs]

/-- Witness for C7's amended statement: `! sh` with exit status 1 yields
0; `! sleep 5 &` yields 0 with negation ignored; `!1 = 0`. -/
theorem c7_negation_amended_witness :
    (plFgNeg.cmds ≠ [] ∧ fastPathB plFgNeg = false ∧ plFgNeg.background = false ∧
     fgWaitLoop [256] 0 = .finished 1 ∧ plFgNeg.negate = true ∧
     (execute_pipeline plFgNeg st0 [] 0 7 [256]).status = cNot 1) ∧
    (plBgNeg.background = true ∧ (execute_pipeline plBgNeg st0 [] 9 500 []).status = 0) ∧
    ((1 : Nat) ≠ 0 ∧ cNot 1 = 0) :=
  ⟨⟨by decide, by decide, rfl, by decide, rfl,
    c7_negation_amended.1 plFgNeg st0 [] 0 7 [256] 1 (by decide) (by decide) rfl (by decide) rfl⟩,
   ⟨rfl, c7_negation_amended.2.1 plBgNeg st0 [] 9 500 [] (by decide) (by decide) rfl⟩,
   ⟨by decide, c7_negation_amended.2.2.2.1 1 (by decide)⟩⟩

/-! ## C8 — the `!` pseudo-variable -/

/-- C8 is false: `last_bg_pid = pgid` runs on the general path before the
background check, so launching the *foreground* pipeline `ls` (pgid 1000)
overwrites the recorded background pgid 42, and `$!` thereafter expands
to `1000`. -/
theorem c8_last_bg_counterexample :
    plLs.background = false ∧
    stBg42.lastBgPid = 42 ∧
    (execute_pipeline plLs stBg42 [] 0 1000 [0]).st.lastBgPid ≠ 42 ∧
    get_var (execute_pipeline plLs stBg42 [] 0 1000 [0]).st "!" = some "1000" :=
  ⟨rfl, rfl, by decide, by decide⟩

/-- C8 amended: every pipeline executed on the general fork path —
foreground or background — records its pgid in `last_bg_pid`, so `$!`
expands to the pgid of the most recently *launched* (not most recently
backgrounded) general-path pipeline; only the single-builtin fast path
leaves the state untouched. -/
theorem c8_last_bg_amended :
    (∀ (pl : Pipeline) (st : ShellState) (jobs : List Job) (br pgid : Nat) (ws : List Nat),
       pl.cmds ≠ [] → fastPathB pl = false →
       (execute_pipeline pl st jobs br pgid ws).st.lastBgPid = pgid ∧
       get_var (execute_pipeline pl st jobs br pgid ws).st "!" = some (toString pgid)) ∧
    (∀ (pl : Pipeline) (st : ShellState) (jobs : List Job) (br pgid : Nat) (ws : List Nat),
       fastPathB pl = true →
       (execute_pipeline pl st jobs br pgid ws).st = st) := by
  constructor
  · intro pl st jobs br pgid ws h1 h2
    have hne := cmds_not_empty h1
    have hbp : (execute_pipeline pl st jobs br pgid ws).st.lastBgPid = pgid := by
      simp only [execute_pipeline, hne, h2, Bool.false_eq_true, if_false]
      by_cases hbg : pl.background = true
      · simp [hbg]
      · simp only [Bool.not_eq_true] at hbg
        simp only [hbg, Bool.false_eq_true, if_false]
        cases hfg : fgWaitLoop ws 0 <;> simp
    refine ⟨hbp, ?_⟩
    unfold get_var
    rw [if_neg (by decide), if_neg (by decide), if_pos rfl, hbp]
  · intro pl st jobs br pgid ws h
    simp [execute_pipeline, fastPath_cmds_nonempty h, h]

/-- Witness for C8's amended statement: the foreground `ls` updates
`last_bg_pid` to its pgid; the fast-path `jobs > f` leaves the state. -/
theorem c8_last_bg_amended_witness :
    (plLs.cmds ≠ [] ∧ fastPathB plLs = false ∧
     (execute_pipeline plLs stBg42 [] 0 1000 [0]).st.lastBgPid = 1000 ∧
     get_var (execute_pipeline plLs stBg42 [] 0 1000 [0]).st "!" = some (toString 1000)) ∧
    (fastPathB plJobsF = true ∧ (execute_pipeline plJobsF st0 [] 0 300 [0]).st = st0) :=
  ⟨⟨by decide, by decide,
    (c8_last_bg_amended.1 plLs stBg42 [] 0 1000 [0] (by decide) (by decide)).1,
    (c8_last_bg_amended.1 plLs stBg42 [] 0 1000 [0] (by decide) (by decide)).2⟩,
   ⟨by decide, c8_last_bg_amended.2 plJobsF st0 [] 0 300 [0] (by decide)⟩⟩

/-! ## C3 — the single-builtin fast path and redirections -/

/-- C3 is false: `jobs > f` takes the fast path, whose only recorded
operation is running the builtin in the shell process — the redirection
to `f` is never applied (no open, no dup, no save/restore), so the
listing goes to the shell's own stdout. -/
theorem c3_fastpath_redirect_counterexample :
    fastPathB plJobsF = true ∧
    (plJobsF.cmds.headD ⟨[], []⟩).redirects = [⟨1, "f", RMode.trunc⟩] ∧
    (execute_pipeline plJobsF st0 [] 0 300 [0]).events =
      [ExecEvent.builtinInShell "jobs"] ∧
    ((execute_pipeline plJobsF st0 [] 0 300 [0]).events.all fun e => !e.isRedirect) = true :=
  ⟨rfl, rfl, rfl, rfl⟩

/-- Every redirection of command `i` produces a `childRedirect` event in
the general path's event list (children apply their redirections). -/
theorem generalEvents_redirect (cmds : List Command) (k i : Nat) (hi : i < cmds.length)
    (r : Redirect) (hr : r ∈ (cmds.get ⟨i, hi⟩).redirects) :
    ExecEvent.childRedirect (k + i) r.file ∈ generalEvents k cmds := by
  induction cmds generalizing k i with
  | nil => simp at hi
  | cons c rest ih =>
    cases i with
    | zero =>
      simp only [generalEvents, childEvents, Nat.add_zero, List.mem_append, List.mem_map]
      exact Or.inl (Or.inl ⟨r, hr, rfl⟩)
    | succ i =>
      have hi' : i < rest.length := by
        simp only [List.length_cons] at hi
        omega
      have hmem := ih (k + 1) i hi' hr
      simp only [generalEvents, List.mem_append]
      right
      have harith : k + (i + 1) = (k + 1) + i := by omega
      rw [harith]
      exact hmem

/-- C3 amended: on the single-builtin foreground fast path the builtin
runs in the shell process and *nothing else happens* — the outcome is
exactly (negated builtin status, unchanged state, unchanged job table,
one `builtinInShell` event), the command's redirections being ignored;
redirections are applied (as `childRedirect` events) only inside the
forked children of the general path. -/
theorem c3_fastpath_amended :
    (∀ (pl : Pipeline) (st : ShellState) (jobs : List Job) (br pgid : Nat) (ws : List Nat),
       fastPathB pl = true →
       execute_pipeline pl st jobs br pgid ws =
         ⟨applyNegate pl.negate br, st, jobs, [ExecEvent.builtinInShell (pipelineArgv0 pl)]⟩) ∧
    (∀ (pl : Pipeline) (st : ShellState) (jobs : List Job) (br pgid : Nat) (ws : List Nat)
       (i : Nat) (r : Redirect) (_ : fastPathB pl = false) (hi : i < pl.cmds.length),
       r ∈ (pl.cmds.get ⟨i, hi⟩).redirects →
       ExecEvent.childRedirect i r.file ∈ (execute_pipeline pl st jobs br pgid ws).events) := by
  constructor
  · intro pl st jobs br pgid ws h
    simp [execute_pipeline, fastPath_cmds_nonempty h, h]
  · intro pl st jobs br pgid ws i r hfp hi hr
    have hne : pl.cmds.isEmpty = false := by
      cases hc : pl.cmds with
      | nil => rw [hc] at hi; simp at hi
      | cons _ _ => rfl
    have hmem := generalEvents_redirect pl.cmds 0 i hi r hr
    rw [Nat.zero_add] at hmem
    simp only [execute_pipeline, hne, hfp, Bool.false_eq_true, if_false]
    by_cases hbg : pl.background = true
    · simp [hbg, hmem]
    · simp only [Bool.not_eq_true] at hbg
      simp only [hbg, Bool.false_eq_true, if_false]
      cases hfg : fgWaitLoop ws 0 <;> simp [hmem]

/-- Witness for C3's amended statement: fast path at `jobs > f`, general
path redirection at `wc < in`. -/
theorem c3_fastpath_amended_witness :
    (fastPathB plJobsF = true ∧
     execute_pipeline plJobsF st0 [] 0 300 [0] =
       ⟨applyNegate plJobsF.negate 0, st0, [], [ExecEvent.builtinInShell (pipelineArgv0 plJobsF)]⟩) ∧
    (fastPathB plWcRed = false ∧ 0 < plWcRed.cmds.length ∧
     ExecEvent.childRedirect 0 "in" ∈ (execute_pipeline plWcRed st0 [] 0 900 [0]).events) :=
  ⟨⟨by decide, c3_fastpath_amended.1 plJobsF st0 [] 0 300 [0] (by decide)⟩,
   ⟨by decide, by decide,
    c3_fastpath_amended.2 plWcRed st0 [] 0 900 [0] 0 ⟨0, "in", RMode.rdonly⟩
      (by decide) (by decide) (by decide)⟩⟩

/-! ## Tokenizer lemmas -/

/-- Scanning a run of plain characters (no whitespace, no quotes)
followed by a space yields exactly that run; the space is consumed. -/
theorem scanToken_plain_append (w rest : List Char)
    (hw : ∀ c ∈ w, isspaceC c = false ∧ isQuoteC c = false) :
    scanToken (w ++ ' ' :: rest) false = (w, rest) := by
  induction w with
  | nil => simp [scanToken, isspaceC]
  | cons c w ih =>
    have hc := hw c (by simp)
    have hrest : ∀ x ∈ w, isspaceC x = false ∧ isQuoteC x = false := by
      intro x hx
      exact hw x (by simp [hx])
    simp [scanToken, hc.1, hc.2, ih hrest]

/-- Scanning a run of plain characters at the end of the line yields the
whole run. -/
theorem scanToken_plain_end (w : List Char)
    (hw : ∀ c ∈ w, isspaceC c = false ∧ isQuoteC c = false) :
    scanToken w false = (w, []) := by
  induction w with
  | nil => simp [scanToken]
  | cons c w ih =>
    have hc := hw c (by simp)
    have hrest : ∀ x ∈ w, isspaceC x = false ∧ isQuoteC x = false := by
      intro x hx
      exact hw x (by simp [hx])
    simp [scanToken, hc.1, hc.2, ih hrest]

/-- The tokenizer loop on an exhausted line. -/
theorem tokenizeAux_nil (fuel ntok : Nat) : tokenizeAux fuel [] ntok = [] := by
  cases fuel <;> simp [tokenizeAux]

/-- One round of the tokenizer loop, starting at a non-space character. -/
theorem tokenizeAux_cons (f ntok : Nat) (c : Char) (s t r : List Char)
    (hn : ¬ 127 ≤ ntok) (hc : isspaceC c = false)
    (hscan : scanToken (c :: s) false = (t, r)) :
    tokenizeAux (f + 1) (c :: s) ntok = t :: tokenizeAux f r (ntok + 1) := by
  conv_lhs => rw [tokenizeAux]
  simp [hn, List.dropWhile_cons, hc, hscan]

/-- The tokenizer loop on a single trailing plain word. -/
theorem tokenizeAux_single (fuel : Nat) (w : List Char) (ntok : Nat)
    (hf : 1 ≤ fuel) (hn : ntok < 127) (hw : w ≠ [])
    (hpl : ∀ c ∈ w, isspaceC c = false ∧ isQuoteC c = false) :
    tokenizeAux fuel w ntok = [w] := by
  cases fuel with
  | zero => omega
  | succ f =>
    cases w with
    | nil => exact absurd rfl hw
    | cons c w' =>
      have hc := hpl c (by simp)
      rw [tokenizeAux_cons f ntok c w' (c :: w') [] (by omega) hc.1
        (scanToken_plain_end _ hpl), tokenizeAux_nil]

/-! ## C2 — operator characters in the tokenizer -/

/-- C2 is false: `tokenize` splits only on unquoted whitespace — the
unquoted `|` in `ls|wc` does not terminate the token, and the line lexes
into the single token `ls|wc` rather than the claimed three tokens. -/
theorem c2_operator_tokens_counterexample :
    tokenize "ls|wc" = ["ls|wc"] ∧ tokenize "ls|wc" ≠ ["ls", "|", "wc"] := by
  constructor
  · rfl
  · decide

/-- C2 amended: only unquoted whitespace terminates a token; an operator
character (`|`, `<`, `>`, `&`) is an ordinary token character and forms
its own token only when whitespace-delimited, and no `>>` coalescing
exists beyond that. Stated generally: two nonempty words of arbitrary
non-whitespace, non-quote characters (operators included) separated by a
space lex into exactly those two tokens. -/
theorem c2_whitespace_tokens_amended (w1 w2 : List Char)
    (h1 : w1 ≠ []) (h2 : w2 ≠ [])
    (hp1 : ∀ c ∈ w1, isspaceC c = false ∧ isQuoteC c = false)
    (hp2 : ∀ c ∈ w2, isspaceC c = false ∧ isQuoteC c = false) :
    tokenize (String.mk (w1 ++ ' ' :: w2)) = [String.mk w1, String.mk w2] := by
  unfold tokenize
  have hlist : (String.mk (w1 ++ ' ' :: w2)).toList = w1 ++ ' ' :: w2 := rfl
  rw [hlist]
  cases w1 with
  | nil => exact absurd rfl h1
  | cons c w1' =>
    have hc := hp1 c (by simp)
    have hscan := scanToken_plain_append (c :: w1') w2 hp1
    simp only [List.cons_append] at hscan ⊢
    have hfuel : (c :: (w1' ++ ' ' :: w2)).length + 1 = (w1'.length + w2.length + 2) + 1 := by
      simp
      omega
    rw [hfuel, tokenizeAux_cons (w1'.length + w2.length + 2) 0 c (w1' ++ ' ' :: w2)
      (c :: w1') w2 (by omega) hc.1 hscan]
    rw [tokenizeAux_single (w1'.length + w2.length + 2) w2 1 (by omega) (by omega) h2 hp2]
    simp

/-- Witness for C2's amended statement: `ls|wc x` lexes into the two
tokens `ls|wc` and `x` — the unquoted operator stays inside its token. -/
theorem c2_whitespace_tokens_amended_witness :
    ((['l', 's', '|', 'w', 'c'] : List Char) ≠ [] ∧ (['x'] : List Char) ≠ [] ∧
     (∀ c ∈ (['l', 's', '|', 'w', 'c'] : List Char),
        isspaceC c = false ∧ isQuoteC c = false) ∧
     (∀ c ∈ (['x'] : List Char), isspaceC c = false ∧ isQuoteC c = false)) ∧
    tokenize (String.mk (['l', 's', '|', 'w', 'c'] ++ ' ' :: ['x'])) =
      [String.mk ['l', 's', '|', 'w', 'c'], String.mk ['x']] :=
  ⟨⟨by decide, by decide, by decide, by decide⟩,
   c2_whitespace_tokens_amended ['l', 's', '|', 'w', 'c'] ['x']
     (by decide) (by decide) (by decide) (by decide)⟩

/-! ## Parser lemmas -/

/-- `set_var` never touches `last_status`. -/
theorem set_var_lastStatus (st : ShellState) (n v : String) (ex : Bool) :
    (set_var st n v ex).lastStatus = st.lastStatus := rfl

/-- Handling one ordinary token never touches `last_status`. -/
theorem applyArg_lastStatus (users : String → Option String) (fs : String → List String)
    (st : ShellState) (cur : Command) (inA : Bool) (t : String) :
    ((applyArg users fs st cur inA t).1).lastStatus = st.lastStatus := by
  unfold applyArg
  cases h : (if inA then splitEq t.toList else none) with
  | none =>
    simp only [h]
    split <;> rfl
  | some p =>
    obtain ⟨n, v⟩ := p
    simp only [h]
    rfl

/-- The parse loop never touches `last_status` (its only state mutation
is `set_var` for leading assignments). -/
theorem parseLoop_lastStatus (users : String → Option String) (fs : String → List String) :
    ∀ (n : Nat) (toks : List String), toks.length ≤ n →
    ∀ (st : ShellState) (cur : Command) (acc : List Command) (inA : Bool),
      ((parseLoop users fs toks st cur acc inA).1).lastStatus = st.lastStatus := by
  intro n
  induction n with
  | zero =>
    intro toks h st cur acc inA
    have hnil : toks = [] := List.eq_nil_of_length_eq_zero (Nat.le_zero.mp h)
    subst hnil
    rfl
  | succ n ih =>
    intro toks h st cur acc inA
    match toks with
    | [] => rfl
    | [t] =>
      simp only [parseLoop]
      by_cases h1 : t = "|"
      · simp [h1]
      · simp [h1, applyArg_lastStatus]
    | t :: nt :: rest =>
      have hlen1 : (nt :: rest).length ≤ n := by
        simp only [List.length_cons] at h ⊢
        omega
      have hlen2 : rest.length ≤ n := by
        simp only [List.length_cons] at h
        omega
      simp only [parseLoop]
      by_cases h1 : t = "|"
      · simp only [if_pos h1]
        exact ih (nt :: rest) hlen1 st _ _ _
      · simp only [if_neg h1]
        by_cases h2 : t = "<"
        · simp only [if_pos h2]
          exact ih rest hlen2 st _ _ _
        · simp only [if_neg h2]
          by_cases h3 : t = ">"
          · simp only [if_pos h3]
            exact ih rest hlen2 st _ _ _
          · simp only [if_neg h3]
            by_cases h4 : t = ">>"
            · simp only [if_pos h4]
              exact ih rest hlen2 st _ _ _
            · simp only [if_neg h4]
              rw [ih (nt :: rest) hlen1]
              exact applyArg_lastStatus users fs st cur inA t

/-- `parse_pipeline` never touches `last_status`. -/
theorem parse_pipeline_lastStatus (users : String → Option String)
    (fs : String → List String) (st : ShellState) (toks : List String) :
    ((parse_pipeline users fs st toks).1).lastStatus = st.lastStatus := by
  simp only [parse_pipeline]
  exact parseLoop_lastStatus users fs _ _ (le_refl _) st _ [] true

/-! ## C6 — unterminated quotes -/

/-- C6 is false: the input `echo "abc` has an unterminated quote, yet it
is not discarded — it tokenizes (quote kept, no error), parses as a valid
pipeline, and is handed to the executor; `last_status` is not set to 2
(it is not touched at all during parsing). -/
theorem c6_unterminated_quote_counterexample :
    tokenize "echo \"abc" = ["echo", "\"abc"] ∧
    (processLine users0 fs0 st0 "echo \"abc").2 ≠ none ∧
    ((processLine users0 fs0 st0 "echo \"abc").1).lastStatus ≠ 2 :=
  ⟨rfl, by decide, by decide⟩

/-- C6 amended: the shell has no quote diagnostics at all — the single
`in_quote` toggle simply runs to the end of the line, so a line with an
unterminated quote tokenizes and parses normally and is executed (here
`echo "abc` runs `echo` with the literal argument `"abc`); no path of the
read loop prints a parse diagnostic or sets the status to 2: parsing
leaves `last_status` unchanged for every input line, and an invalid parse
merely skips the line silently. -/
theorem c6_no_parse_error_amended :
    (∀ (users : String → Option String) (fs : String → List String)
       (st : ShellState) (line : String),
       ((processLine users fs st line).1).lastStatus = st.lastStatus) ∧
    (processLine users0 fs0 st0 "echo \"abc").2 =
      some ⟨[⟨["echo", "\"abc"], []⟩], false, false⟩ := by
  constructor
  · intro users fs st line
    simp only [processLine]
    split
    · rfl
    · split
      · rfl
      · split
        · exact parse_pipeline_lastStatus users fs st _
        · exact parse_pipeline_lastStatus users fs st _
  · rfl

/-! ## Expander lemmas -/

/-- The unbraced name scanner consumes a whole run of name characters
(at most 255 of them) reaching the end of the input. -/
theorem takeVar_all (l : List Char) (i : Nat)
    (hv : ∀ c ∈ l, varChar c = true) (hlen : i + l.length ≤ 255) :
    takeVar l i = (l, []) := by
  induction l generalizing i with
  | nil => simp [takeVar]
  | cons c rest ih =>
    have hc := hv c (by simp)
    have hi : i < 255 := by
      simp only [List.length_cons] at hlen
      omega
    have hrest : ∀ x ∈ rest, varChar x = true := by
      intro x hx
      exact hv x (by simp [hx])
    have hlen' : i + 1 + rest.length ≤ 255 := by
      simp only [List.length_cons] at hlen
      omega
    simp [takeVar, hc, hi, ih (i + 1) hrest hlen']

/-- The braced name scanner stops exactly at the closing brace. -/
theorem takeBraced_to_close (l tl : List Char) (i : Nat)
    (hnb : '}' ∉ l) (hlen : i + l.length ≤ 255) :
    takeBraced (l ++ '}' :: tl) i = (l, '}' :: tl) := by
  induction l generalizing i with
  | nil => simp [takeBraced]
  | cons c rest ih =>
    have hc : c ≠ '}' := by
      intro he
      exact hnb (by simp [he])
    have hi : i < 255 := by
      simp only [List.length_cons] at hlen
      omega
    have hrest : '}' ∉ rest := by
      intro hx
      exact hnb (by simp [hx])
    have hlen' : i + 1 + rest.length ≤ 255 := by
      simp only [List.length_cons] at hlen
      omega
    simp [takeBraced, bne_iff_ne, hc, hi, ih (i + 1) hrest hlen']

/-- The expander on exhausted input. -/
theorem expandAux_nil (users : String → Option String) (st : ShellState)
    (fuel : Nat) (tOk : Bool) (cap : Nat) :
    expandAux users st fuel [] tOk cap = [] := by
  cases fuel <;> simp [expandAux]

/-- A word that is exactly `$` followed by a name of name-class
characters expands to the looked-up value (bounded by the buffer). -/
theorem expand_dollar_plain (users : String → Option String) (st : ShellState)
    (x : Char) (xs : List Char) (f : Nat)
    (hv : ∀ c ∈ x :: xs, varChar c = true) (hlen : (x :: xs).length ≤ 255) :
    expandAux users st (f + 1) ('$' :: x :: xs) true 4095 =
      optTake (get_var st (String.mk (x :: xs))) 4095 := by
  have hx := hv x (by simp)
  have hxb : x ≠ '{' := by
    intro he
    rw [he] at hx
    exact absurd hx (by decide)
  simp [expandAux, hxb, takeVar_all (x :: xs) 0 hv (by simpa using hlen), expandAux_nil]

/-- A word that is exactly `${name}` expands to the looked-up value. -/
theorem expand_dollar_braced (users : String → Option String) (st : ShellState)
    (l : List Char) (f : Nat)
    (hnb : '}' ∉ l) (hlen : l.length ≤ 255) :
    expandAux users st (f + 1) ('$' :: '{' :: (l ++ ['}'])) true 4095 =
      optTake (get_var st (String.mk l)) 4095 := by
  simp [expandAux, takeBraced_to_close l [] 0 hnb (by simpa using hlen), expandAux_nil]

/-- A value that fits the buffer survives `optTake` unchanged; a missing
value contributes the empty string. -/
theorem optTake_getD (o : Option String) (hfit : (o.getD "").toList.length ≤ 4095) :
    String.mk (optTake o 4095) = o.getD "" := by
  cases o with
  | none => rfl
  | some v =>
    simp only [optTake, Option.getD_some]
    rw [List.take_of_length_le (by simpa using hfit)]
    cases v
    rfl

/-! ## C9 — parameter expansion lookup order -/

/-- C9: for a parameter expansion `$NAME` or `${NAME}` (a nonempty name
of name-class characters `x :: xs` that fits the scanner's 255-byte
limit, with a value fitting the output buffer), the expansion is the
`get_var` lookup, and that lookup proceeds in the order: special
pseudo-variables `?`, `$`, `!` first (conjunct 3 — they win regardless
of the store and environment), then the shell variable store (conjunct 4
— a store hit wins over any environment), then the process environment
(conjunct 5); a name found nowhere expands to the empty string
(conjunct 6 — the word does not fail and no text is left in place). -/
theorem c9_expansion_lookup_order (users : String → Option String) (st : ShellState)
    (x : Char) (xs : List Char)
    (hv : ∀ c ∈ x :: xs, varChar c = true) (hlen : (x :: xs).length ≤ 255)
    (hfit : (getVarD st (String.mk (x :: xs))).toList.length ≤ 4095) :
    expand_word users st (String.mk ('$' :: x :: xs)) = getVarD st (String.mk (x :: xs)) ∧
    expand_word users st (String.mk ('$' :: '{' :: ((x :: xs) ++ ['}']))) =
      getVarD st (String.mk (x :: xs)) ∧
    (get_var st "?" = some (toString st.lastStatus) ∧
     get_var st "$" = some (toString st.shellPid) ∧
     get_var st "!" = some (toString st.lastBgPid)) ∧
    (∀ (n : String) (e : VarEntry), n ≠ "?" → n ≠ "$" → n ≠ "!" →
       find_var st.vars n = some e → get_var st n = some e.value) ∧
    (∀ n : String, n ≠ "?" → n ≠ "$" → n ≠ "!" → find_var st.vars n = none →
       get_var st n = getenvF st.env n) ∧
    (∀ n : String, n ≠ "?" → n ≠ "$" → n ≠ "!" → find_var st.vars n = none →
       getenvF st.env n = none → getVarD st n = "") := by
  have hnb : '}' ∉ x :: xs := by
    intro hm
    have h := hv '}' hm
    exact absurd h (by decide)
  refine ⟨?_, ?_, ⟨rfl, rfl, rfl⟩, ?_, ?_, ?_⟩
  · unfold expand_word
    have ht : (String.mk ('$' :: x :: xs)).toList = '$' :: x :: xs := rfl
    rw [ht, List.length_cons, expand_dollar_plain users st x xs _ hv hlen]
    exact optTake_getD _ hfit
  · unfold expand_word
    have ht : (String.mk ('$' :: '{' :: ((x :: xs) ++ ['}']))).toList =
        '$' :: '{' :: ((x :: xs) ++ ['}']) := rfl
    rw [ht]
    rw [show ('$' :: '{' :: ((x :: xs) ++ ['}'])).length + 1 =
        (((x :: xs) ++ ['}']).length + 1) + 1 + 1 from by simp]
    rw [expand_dollar_braced users st (x :: xs) _ hnb hlen]
    exact optTake_getD _ hfit
  · intro n e h1 h2 h3 hf
    unfold get_var
    rw [if_neg h1, if_neg h2, if_neg h3, hf]
  · intro n h1 h2 h3 hf
    unfold get_var
    rw [if_neg h1, if_neg h2, if_neg h3, hf]
  · intro n h1 h2 h3 hf he
    unfold getVarD get_var
    rw [if_neg h1, if_neg h2, if_neg h3, hf, he]
    rfl

/-- Witness for C9 at the name `FOO` in a state where the store holds
`bar` and the environment holds `env`: the expansion is the store value
(the environment is shadowed), for both `$FOO` and `${FOO}`. -/
theorem c9_expansion_lookup_order_witness :
    ((∀ c ∈ ('F' :: ['O', 'O'] : List Char), varChar c = true) ∧
     ('F' :: ['O', 'O'] : List Char).length ≤ 255 ∧
     (getVarD stC9 (String.mk ('F' :: ['O', 'O']))).toList.length ≤ 4095) ∧
    expand_word users0 stC9 (String.mk ('$' :: 'F' :: ['O', 'O'])) =
      getVarD stC9 (String.mk ('F' :: ['O', 'O'])) ∧
    expand_word users0 stC9 (String.mk ('$' :: '{' :: (('F' :: ['O', 'O']) ++ ['}']))) =
      getVarD stC9 (String.mk ('F' :: ['O', 'O'])) ∧
    getVarD stC9 (String.mk ('F' :: ['O', 'O'])) = "bar" :=
  ⟨⟨by decide, by decide, by decide⟩,
   (c9_expansion_lookup_order users0 stC9 'F' ['O', 'O']
     (by decide) (by decide) (by decide)).1,
   (c9_expansion_lookup_order users0 stC9 'F' ['O', 'O']
     (by decide) (by decide) (by decide)).2.1,
   by decide⟩

end Mysh
